import Mathlib

/-!
Verification of the name codec, cache, client, server reply pipeline and
dialers of the benburkert/dns Go package, shallowly embedded in Lean.

Conventions of the embedding:
- Go byte strings (domain names, wire buffers) are List Nat with entries
  below 256; the dot character is byte 46.
- Go slices are Lean lists; appending mirrors the Go append calls.
- Fallible Go functions return Res below; a Go runtime failure such as an
  index-out-of-range access is the distinguished Res.crash outcome.
- Recursive Go functions are embedded with an explicit fuel argument so
  that every definition is structurally recursive and kernel-evaluable.
  The public wrappers pass fuel that strictly exceeds the length of any
  possible call chain, so the fuel-exhaustion branch is unreachable and
  the wrappers agree with the Go code on every input.
-/

/-- Parse and pack errors of the message codec (errors.go of the package). -/
inductive PErr where
  | baseLen
  | calcLen
  | invalidPtr
  | ptrCycle
  | zeroSegLen
  | segTooLong
deriving DecidableEq, Repr

/-- Outcome of an embedded Go computation: a value, a returned error, or a
Go runtime failure (index out of range, slice bounds, stack overflow). -/
inductive Res (α : Type) where
  | ok : α → Res α
  | err : PErr → Res α
  | crash : Res α
deriving DecidableEq, Repr

/-- The compression dictionary: Go type compressor, a map from a name
suffix to the buffer offset where that suffix was first written. The Go
map is modelled as an association list; keys are never inserted twice, so
lookup order is irrelevant. A nil compressor map is Option.none at the
call sites. -/
abbrev Dict : Type := List (List Nat × Nat)

/-- Lookup in the compression dictionary. -/
def lookupD : Dict → List Nat → Option Nat
  | [], _ => none
  | (k, v) :: rest, f => if k = f then some v else lookupD rest f

/-- The nil guarded dictionary read in compressor.Pack: a hit is possible
only for a non-nil map (src/unnamed/part_005 lines 58-67). -/
def dictHit (c : Option Dict) (f : List Nat) : Option Nat :=
  match c with
  | none => none
  | some d => lookupD d f

/-- The nil guarded dictionary write in compressor.Pack, including the
uint16 range check on the recorded offset (src/unnamed/part_005 lines
77-83): idx is rejected only when it does not fit in 16 bits. -/
def dictInsert (c : Option Dict) (f : List Nat) (idx : Nat) : Res (Option Dict) :=
  match c with
  | none => .ok none
  | some d => if idx % 65536 ≠ idx then .err .invalidPtr else .ok (some ((f, idx) :: d))

/-- strings.IndexByte for the dot byte: index of the first 46, if any. -/
def idxDot : List Nat → Option Nat
  | [] => none
  | c :: cs => if c = 46 then some 0 else (idxDot cs).map (· + 1)

/-- pointerTo (src/unnamed/part_005 lines 163-173): build the two big
endian bytes of a compression pointer. The range check is against uint16,
and the subsequent or with 0xC000 silently overwrites the top two bits of
any offset in [2^14, 2^16). -/
def pointerTo (idx : Nat) : Res (List Nat) :=
  let ptr := idx % 65536
  if ptr ≠ idx then .err .invalidPtr
  else
    let ptr2 := ptr ||| 0xC000
    .ok [ptr2 / 256, ptr2 % 256]

/-- isPointer (src/unnamed/part_005 line 161): a byte is routed to the
pointer branch when b and 0xC0 is positive, that is when at least one of
the top two bits is set. -/
def isPointer (b : Nat) : Bool := decide (0 < b &&& 0xC0)

/-- compressor.Pack (src/unnamed/part_005 lines 53-89), with fuel. Each
step handles the root case, then a dictionary hit, then splits off the
first label at the first dot, records the suffix offset in a non-nil
dictionary and recurses on the remaining suffix. A name without a dot
reaches the Go slice expression fqdn[:pvt] with pvt = -1, a runtime
failure, after the possible invalidPtr error of the offset check. -/
def packFu : Nat → Option Dict → List Nat → List Nat → Res (Option Dict × List Nat)
  | 0, _, _, _ => .crash
  | fu + 1, c, b, f =>
    if f = [46] ∨ f = [] then .ok (c, b ++ [0])
    else
      match dictHit c f with
      | some idx =>
        match pointerTo idx with
        | .ok ptr => .ok (c, b ++ ptr)
        | .err e => .err e
        | .crash => .crash
      | none =>
        match idxDot f with
        | some pvt =>
          if pvt = 0 then .err .zeroSegLen
          else if 63 < pvt then .err .segTooLong
          else
            match dictInsert c f b.length with
            | .err e => .err e
            | .crash => .crash
            | .ok c2 => packFu fu c2 (b ++ pvt :: f.take pvt) (f.drop (pvt + 1))
        | none =>
          match dictInsert c f b.length with
          | .err e => .err e
          | _ => .crash

/-- compressor.Pack: each recursive step removes at least one label and
its dot from the name, so length of fqdn plus one steps always suffice. -/
def compressorPack (c : Option Dict) (b f : List Nat) : Res (Option Dict × List Nat) :=
  packFu (f.length + 1) c b f

/-- compressor.length (src/unnamed/part_005 lines 33-51), with fuel. For
a non-nil compressor a dictionary or visited hit counts two pointer
bytes; otherwise the name is marked visited and the first label plus dot
is counted. A name without a dot makes the Go code recurse forever; that
divergence is the none result. -/
def lengthFu : Nat → Option Dict → List Nat → List (List Nat) → Option Nat
  | 0, _, _, _ => none
  | fu + 1, c, f, visited =>
    if f = [46] ∨ f = [] then some 1
    else
      match c with
      | some d =>
        if (lookupD d f).isSome then some 2
        else if f ∈ visited then some 2
        else
          match idxDot f with
          | none => none
          | some pvt => (lengthFu fu (some d) (f.drop (pvt + 1)) (f :: visited)).map (fun n => pvt + 1 + n)
      | none =>
        match idxDot f with
        | none => none
        | some pvt => (lengthFu fu none (f.drop (pvt + 1)) visited).map (fun n => pvt + 1 + n)

/-- compressor.Length (src/unnamed/part_005 lines 20-31) applied to a
single name: an empty visited set, nil guarded exactly as in the source. -/
def compressorLength (c : Option Dict) (f : List Nat) : Option Nat :=
  lengthFu (f.length + 1) c f []

/-- decompressor.unpack (src/unnamed/part_005 lines 97-139), with fuel.
The decompressor c is the full original message buffer, or none for the
nil decompressor. A zero first byte is the root; a buffer of one other
byte is too short; a first byte with a top bit set routes to the pointer
branch, where decompressor.deref (lines 141-159) is inlined so that the
mutual recursion is structural on the fuel; otherwise the first byte is a
label length. -/
def unpack (c : Option (List Nat)) : Nat → List Nat → List Nat → Res (List Nat × List Nat)
  | 0, _, _ => .crash
  | fu + 1, b, visited =>
    match b with
    | [] => .err .baseLen
    | 0 :: rest => .ok ([46], rest)
    | [_] => .err .baseLen
    | b0 :: b1 :: rest =>
      if isPointer b0 then
        match c with
        | none => .err .invalidPtr
        | some d =>
          let idx := (b0 * 256 + b1) &&& 0x3FFF
          let r : Res (List Nat) :=
            if d.length < idx then .err .invalidPtr
            else
              match d.get? idx with
              | none => .crash
              | some cb =>
                if isPointer cb then .err .invalidPtr
                else if idx ∈ visited then .err .ptrCycle
                else
                  match unpack c fu (d.drop idx) (visited ++ [idx]) with
                  | .ok (name, _) => .ok name
                  | .err e => .err e
                  | .crash => .crash
          match r with
          | .ok name => .ok (name, rest)
          | .err e => .err e
          | .crash => .crash
      else
        if (b1 :: rest).length < b0 then .err .calcLen
        else
          match unpack c fu ((b1 :: rest).drop b0) visited with
          | .ok (suffix, rest2) =>
            if suffix = [46] then .ok ((b1 :: rest).take b0 ++ [46], rest2)
            else .ok ((b1 :: rest).take b0 ++ 46 :: suffix, rest2)
          | .err e => .err e
          | .crash => .crash

/-- decompressor.deref (src/unnamed/part_005 lines 141-159) as a
standalone definition: mask the offset to 14 bits, reject an offset past
the buffer, read the referenced byte (an out of range read when the
offset equals the buffer length, since the bound check uses strict less
than), reject a pointer byte, reject a revisited offset, then unpack at
the offset with the offset added to the visited set. Its body is exactly
the term inlined in the pointer branch of unpack. -/
def deref (d : List Nat) (fuel : Nat) (ptr : Nat) (visited : List Nat) : Res (List Nat) :=
  let idx := ptr &&& 0x3FFF
  if d.length < idx then .err .invalidPtr
  else
    match d.get? idx with
    | none => .crash
    | some cb =>
      if isPointer cb then .err .invalidPtr
      else if idx ∈ visited then .err .ptrCycle
      else
        match unpack (some d) fuel (d.drop idx) (visited ++ [idx]) with
        | .ok (name, _) => .ok name
        | .err e => .err e
        | .crash => .crash

/-- Message buffer length of the optional decompressor. -/
def cLen : Option (List Nat) → Nat
  | none => 0
  | some d => d.length

/-- Fuel for decompressor.Unpack. A call chain before the first pointer
jump shortens the initial buffer every step; every pointer jump records a
fresh in-range offset of the message in the visited set, so there are at
most length d jumps, each followed by at most length d label steps. The
bound below strictly exceeds any chain length. -/
def unpackFuel (c : Option (List Nat)) (b : List Nat) : Nat :=
  (cLen c + 2) * (cLen c + 2) + b.length + 2

/-- decompressor.Unpack (src/unnamed/part_005 lines 93-95): unpack with a
nil visited set. -/
def decompressorUnpack (c : Option (List Nat)) (b : List Nat) : Res (List Nat × List Nat) :=
  unpack c (unpackFuel c b) b []

/-!
The TTL based query cache: Cache.lookup and Cache.ServeDNS from
src/unnamed/part_000 (the revision of cache.go whose lookup treats a
cached entry with any expired resource as a whole miss). Time instants
and durations are Int nanoseconds; stored TTLs are absolute deadlines.
-/

/-- Cache key: a DNS question (name, type, class). -/
structure Question where
  qname : List Nat
  qtype : Nat
  qclass : Nat
deriving DecidableEq, Repr

/-- A stored resource: owner name, TTL field and an abstract record value.
In the cache the TTL field holds the absolute expiry deadline. -/
structure Resource where
  rname : List Nat
  ttl : Int
  rdata : Nat
deriving DecidableEq, Repr

/-- The message stored per cached question: the three resource sections. -/
structure CacheMsg where
  answers : List Resource
  authorities : List Resource
  additionals : List Resource
deriving DecidableEq, Repr

/-- The section of the response a MessageWriter call appends to. -/
inductive Sect where
  | answer
  | authority
  | additional
deriving DecidableEq, Repr

/-- One MessageWriter append observed during lookup: the section together
with the written name, remaining TTL and record. -/
structure WriteOp where
  sec : Sect
  wname : List Nat
  wttl : Int
  wrec : Nat
deriving DecidableEq, Repr

/-- cacheTTL (src/unnamed/part_000 lines 122-124): remaining TTL of a
stored absolute deadline at instant now. -/
def cacheTTL (epoch now : Int) : Int := epoch - now

/-- The Go map read c.cache[q], modelled on an association list. -/
def assocFind : List (Question × CacheMsg) → Question → Option CacheMsg
  | [], _ => none
  | (k, m) :: rest, q => if k = q then some m else assocFind rest q

/-- One collection loop of Cache.lookup (src/unnamed/part_000 lines
50-70): walk the section in order, replace each TTL by its remaining
TTL, and abort the whole lookup at the first expired resource. -/
def collectFresh (now : Int) : List Resource → Option (List Resource)
  | [] => some []
  | r :: rest =>
    let t := cacheTTL r.ttl now
    if t ≤ 0 then none
    else (collectFresh now rest).map (fun others => { r with ttl := t } :: others)

/-- Cache.lookup (src/unnamed/part_000 lines 42-83): a missing entry or
any expired resource is a miss with no writes; otherwise every collected
resource is written. The source writes the answers list to all three
sections (its three final loops all range over answers); the claims
checked here only depend on the miss case. -/
def cacheLookup (cache : List (Question × CacheMsg)) (q : Question) (now : Int) :
    Bool × List WriteOp :=
  match assocFind cache q with
  | none => (false, [])
  | some msg =>
    match collectFresh now msg.answers with
    | none => (false, [])
    | some answers =>
      match collectFresh now msg.authorities with
      | none => (false, [])
      | some _ =>
        match collectFresh now msg.additionals with
        | none => (false, [])
        | some _ =>
          (true,
            answers.map (fun r => ⟨.answer, r.rname, r.ttl, r.rdata⟩) ++
            answers.map (fun r => ⟨.authority, r.rname, r.ttl, r.rdata⟩) ++
            answers.map (fun r => ⟨.additional, r.rname, r.ttl, r.rdata⟩))

/-- Cache.ServeDNS (src/unnamed/part_000 lines 17-39) up to the recursion
decision: look up every question of the query in order, collecting the
writes; the second component tells whether any question missed, in which
case the source calls w.Recur upstream. -/
def cacheServeDNS (cache : List (Question × CacheMsg)) (qs : List Question) (now : Int) :
    List WriteOp × Bool :=
  let results := qs.map (fun q => cacheLookup cache q now)
  ((results.map Prod.snd).flatten, results.any (fun r => !r.1))

/-!
The client request path: Client.do and Client.nextID from
src/unnamed/part_002 (the revision of client.go that substitutes a fresh
message ID before the send and restores the original on the response).
-/

/-- A DNS message as seen by Client.do: the 16 bit header ID and the rest
of the message, kept abstract here. -/
structure GoMsg where
  mid : Nat
  rest : Nat
deriving DecidableEq, Repr

/-- idMask (src/unnamed/part_002 line 108). -/
def idMask : Nat := (1 <<< 16) - 1

/-- Client.nextID (src/unnamed/part_002 lines 110-112): increment the 32
bit counter atomically and mask the new value to 16 bits. Returns the new
counter and the produced ID. -/
def nextID (cid : Nat) : Nat × Nat :=
  let cid2 := (cid + 1) % 4294967296
  (cid2, cid2 &&& idMask)

/-- Client.do (src/unnamed/part_002 lines 90-106): remember the query ID,
copy the query message, substitute the next client ID, send the copy,
receive the reply into the same local copy, restore the original ID and
return it. The connection is abstracted by the respond function from the
sent message to the received reply. Result: new counter, message sent on
the wire, message returned to the caller. -/
def clientDo (cid : Nat) (query : GoMsg) (respond : GoMsg → GoMsg) : Nat × GoMsg × GoMsg :=
  let id := query.mid
  let p := nextID cid
  let msg := { query with mid := p.2 }
  let received := respond msg
  let returned := { received with mid := id }
  (p.1, msg, returned)

/-!
The server reply pipeline: Server.handle and serverWriter.Reply from
src/unnamed/part_009 (lines 331-341 and 425-435).
-/

/-- The serverWriter struct (src/unnamed/part_009 lines 425-429): the
embedded MessageWriter is modelled by its observable effect (the count of
replies actually sent, threaded separately), leaving the replied flag. -/
structure ServerWriter where
  replied : Bool
deriving DecidableEq, Repr

/-- serverWriter.Reply (src/unnamed/part_009 lines 431-435). The method
has a VALUE receiver: it sets replied on its receiver copy and forwards
to the underlying Reply, whose effect is the incremented send count. The
updated copy is the first component. -/
def serverWriterReply (w : ServerWriter) (sends : Nat) : ServerWriter × Nat :=
  ({ w with replied := true }, sends + 1)

/-- A Reply call through the *serverWriter pointer created in
Server.handle. Because the receiver of serverWriterReply is a value, Go
passes a copy of the pointee and discards the updated copy when the call
returns: the pointee keeps its replied field, only the send effect
persists. -/
def callReply (cell : ServerWriter) (sends : Nat) : ServerWriter × Nat :=
  (cell, (serverWriterReply cell sends).2)

/-- A handler abstracted by how many times it invokes Reply on the writer
it was given; every invocation goes through the pointer call above. -/
def runHandler : Nat → ServerWriter → Nat → ServerWriter × Nat
  | 0, cell, sends => (cell, sends)
  | k + 1, cell, sends => runHandler k (callReply cell sends).1 (callReply cell sends).2

/-- Server.handle (src/unnamed/part_009 lines 331-341): allocate a
serverWriter with replied false, run the handler, and if the writer still
reports replied false, invoke Reply once more. Returns the total number
of replies sent for the query. -/
def serverHandle (handlerReplies : Nat) : Nat :=
  let st := runHandler handlerReplies { replied := false } 0
  if st.1.replied then st.2 else (callReply st.1 st.2).2

/-!
The two dialers: Transport.DialAddr (src/transport.go lines 25-85) and
Dialer.DialAddr (src/dial.go lines 23-49). The net connection produced by
the configurable DialContext is abstracted by the three dynamic type
facts the source inspects; dial and handshake failures are not modelled,
as the claim concerns the classification of a successfully dialed
connection.
-/

/-- The dynamic type facts of a dialed net.Conn that DialAddr inspects:
whether it already implements the package Conn interface, whether it is a
*tls.Conn, and whether it implements net.PacketConn. -/
structure GoNetConn where
  isDnsConn : Bool
  isTLSConn : Bool
  isPacketConn : Bool
deriving DecidableEq, Repr

/-- What DialAddr hands back: the connection as-is when it already is a
package Conn, the connection wrapped in PacketConn or StreamConn, or the
ErrUnsupportedNetwork failure. -/
inductive DialResult where
  | asIs (c : GoNetConn)
  | packet (c : GoNetConn)
  | stream (c : GoNetConn)
  | errUnsupportedNetwork
deriving DecidableEq, Repr

/-- tls.Client wraps any connection in a *tls.Conn, which implements
neither the package Conn interface nor net.PacketConn. -/
def tlsClient (_c : GoNetConn) : GoNetConn :=
  { isDnsConn := false, isTLSConn := true, isPacketConn := false }

/-- The network suffix handling of Transport.dial (src/transport.go lines
78-81): strip a trailing -tls and remember that TLS is required. The
suffix test is written on the character list so that it evaluates inside
the kernel; it agrees with strings.HasSuffix. -/
def stripTLS (network : String) : String × Bool :=
  let cs := network.data
  if 4 ≤ cs.length ∧ cs.drop (cs.length - 4) = ['-', 't', 'l', 's'] then
    (⟨cs.take (cs.length - 4)⟩, true)
  else (network, false)

/-- Transport.DialAddr together with Transport.dial (src/transport.go
lines 25-85): apply the optional proxy, strip the -tls suffix, dial with
the stripped network, return a connection that already implements Conn
as-is, wrap in a TLS client when required, then wrap in PacketConn
exactly when the connection implements net.PacketConn and in StreamConn
otherwise. An address is a network string paired with an address string. -/
def transportDialAddr (proxy : Option (String × String → String × String))
    (dialContext : String → String → GoNetConn) (addr : String × String) : DialResult :=
  let addr2 := match proxy with
    | none => addr
    | some p => p addr
  let st := stripTLS addr2.1
  let conn := dialContext st.1 addr2.2
  if conn.isDnsConn then .asIs conn
  else
    let conn2 := if st.2 && !conn.isTLSConn then tlsClient conn else conn
    if conn2.isPacketConn then .packet conn2 else .stream conn2

/-- Dialer.DialAddr (src/dial.go lines 23-49): dial with the raw network
string of the address (no -tls stripping, no TLS upgrade), return a Conn
as-is, then switch on the same raw network string: tcp, tcp4, tcp6 to
StreamConn; udp, udp4, udp6 to PacketConn; anything else fails with
ErrUnsupportedNetwork. -/
def dialerDialAddr (dialContext : String → String → GoNetConn)
    (addr : String × String) : DialResult :=
  let conn := dialContext addr.1 addr.2
  if conn.isDnsConn then .asIs conn
  else if addr.1 = "tcp" ∨ addr.1 = "tcp4" ∨ addr.1 = "tcp6" then .stream conn
  else if addr.1 = "udp" ∨ addr.1 = "udp4" ∨ addr.1 = "udp6" then .packet conn
  else .errUnsupportedNetwork

/-!
Specification-side descriptions of fully qualified domain names, used to
state the round trip law: a name is a dot terminated sequence of labels.
-/

/-- The string form of a label sequence: every label followed by a dot. -/
def nameOf : List (List Nat) → List Nat
  | [] => []
  | l :: ls => l ++ 46 :: nameOf ls

/-- The uncompressed wire form of a label sequence: every label preceded
by its length byte, then the terminating zero byte. -/
def wireOf : List (List Nat) → List Nat
  | [] => [0]
  | l :: ls => l.length :: (l ++ wireOf ls)

/-- Valid labels: nonempty, at most 63 bytes, containing no dot byte.
An abbreviation so that the property stays decidable by unfolding. -/
abbrev ValidLabels (ls : List (List Nat)) : Prop :=
  ∀ l ∈ ls, l ≠ [] ∧ l.length ≤ 63 ∧ ¬ 46 ∈ l

/-- A fully qualified domain name with valid labels, written with its
trailing dot: either the bare root or a nonempty valid label sequence. -/
def FQDNSpec (n : List Nat) : Prop :=
  n = [46] ∨ ∃ ls, ls ≠ [] ∧ ValidLabels ls ∧ n = nameOf ls

/-!
Supporting lemmas. The first group consists of evaluation equations for
the fueled functions: one equation per source branch, so that later
proofs can step through a call exactly as the Go code would execute it.
-/

theorem packFu_base (fu : Nat) (c : Option Dict) (b f : List Nat)
    (h : f = [46] ∨ f = []) : packFu (fu + 1) c b f = .ok (c, b ++ [0]) := by
  simp only [packFu, if_pos h]

theorem packFu_hit (fu : Nat) (c : Option Dict) (b f : List Nat) (idx : Nat)
    (hne : ¬ (f = [46] ∨ f = [])) (hhit : dictHit c f = some idx) :
    packFu (fu + 1) c b f =
      (match pointerTo idx with
       | .ok ptr => .ok (c, b ++ ptr)
       | .err e => .err e
       | .crash => .crash) := by
  simp only [packFu, if_neg hne]
  rw [hhit]

theorem packFu_step (fu : Nat) (c : Option Dict) (b f : List Nat) (pvt : Nat)
    (c2 : Option Dict) (hne : ¬ (f = [46] ∨ f = [])) (hhit : dictHit c f = none)
    (hdot : idxDot f = some pvt) (h0 : ¬ pvt = 0) (h63 : ¬ 63 < pvt)
    (hins : dictInsert c f b.length = .ok c2) :
    packFu (fu + 1) c b f = packFu fu c2 (b ++ pvt :: f.take pvt) (f.drop (pvt + 1)) := by
  simp only [packFu, if_neg hne]
  rw [hhit]
  simp only []
  rw [hdot]
  simp only []
  rw [if_neg h0, if_neg h63, hins]

theorem lengthFu_base (fu : Nat) (c : Option Dict) (f : List Nat) (vis : List (List Nat))
    (h : f = [46] ∨ f = []) : lengthFu (fu + 1) c f vis = some 1 := by
  simp only [lengthFu, if_pos h]

theorem lengthFu_hit (fu : Nat) (d : Dict) (f : List Nat) (vis : List (List Nat))
    (hne : ¬ (f = [46] ∨ f = [])) (hhit : (lookupD d f).isSome = true) :
    lengthFu (fu + 1) (some d) f vis = some 2 := by
  simp only [lengthFu, if_neg hne]
  rw [if_pos hhit]

theorem lengthFu_step_some (fu : Nat) (d : Dict) (f : List Nat) (vis : List (List Nat))
    (pvt : Nat) (hne : ¬ (f = [46] ∨ f = [])) (hmiss : lookupD d f = none)
    (hnvis : ¬ f ∈ vis) (hdot : idxDot f = some pvt) :
    lengthFu (fu + 1) (some d) f vis =
      (lengthFu fu (some d) (f.drop (pvt + 1)) (f :: vis)).map (fun n => pvt + 1 + n) := by
  simp only [lengthFu, if_neg hne]
  rw [hmiss]
  simp only [Option.isSome_none, Bool.false_eq_true, if_false]
  rw [if_neg hnvis, hdot]

theorem lengthFu_step_none (fu : Nat) (f : List Nat) (vis : List (List Nat)) (pvt : Nat)
    (hne : ¬ (f = [46] ∨ f = [])) (hdot : idxDot f = some pvt) :
    lengthFu (fu + 1) none f vis =
      (lengthFu fu none (f.drop (pvt + 1)) vis).map (fun n => pvt + 1 + n) := by
  simp only [lengthFu, if_neg hne]
  rw [hdot]

theorem unpack_label_step (c : Option (List Nat)) (fu k b1 : Nat) (rest vis : List Nat)
    (hptr : isPointer (k + 1) = false) (hlen : ¬ (b1 :: rest).length < k + 1) :
    unpack c (fu + 1) ((k + 1) :: b1 :: rest) vis =
      (match unpack c fu ((b1 :: rest).drop (k + 1)) vis with
       | .ok (suffix, rest2) =>
         if suffix = [46] then .ok ((b1 :: rest).take (k + 1) ++ [46], rest2)
         else .ok ((b1 :: rest).take (k + 1) ++ 46 :: suffix, rest2)
       | .err e => .err e
       | .crash => .crash) := by
  simp only [unpack, hptr, Bool.false_eq_true, if_false]
  rw [if_neg hlen]

theorem unpack_ptr_step (d : List Nat) (fu k b1 : Nat) (rest vis : List Nat)
    (hptr : isPointer (k + 1) = true) :
    unpack (some d) (fu + 1) ((k + 1) :: b1 :: rest) vis =
      (match deref d fu ((k + 1) * 256 + b1) vis with
       | .ok name => .ok (name, rest)
       | .err e => .err e
       | .crash => .crash) := by
  simp only [unpack, deref, hptr, if_true]

theorem unpack_ptr_none (fu k b1 : Nat) (rest vis : List Nat)
    (hptr : isPointer (k + 1) = true) :
    unpack none (fu + 1) ((k + 1) :: b1 :: rest) vis = .err .invalidPtr := by
  simp only [unpack, hptr, if_true]

/-!
Arithmetic and list facts.
-/

/-- Bytes below 64 have both pointer bits clear. -/
theorem and192_eq_zero_of_lt (n : Nat) (h : n < 64) : n &&& 192 = 0 := by
  have hall : ∀ m < 64, m &&& 192 = 0 := by decide
  exact hall n h

/-- A label length byte, being at most 63, is not routed to the pointer
branch of unpack. -/
theorem isPointer_of_le_63 (n : Nat) (h : n ≤ 63) : isPointer n = false := by
  unfold isPointer
  rw [and192_eq_zero_of_lt n (by omega)]
  decide

/-- The first dot of a dot free label followed by a dot sits right after
the label. -/
theorem idxDot_append (l r : List Nat) (h : ¬ 46 ∈ l) :
    idxDot (l ++ 46 :: r) = some l.length := by
  induction l with
  | nil => simp [idxDot]
  | cons a t ih =>
    have ha : ¬ a = 46 := fun hc => h (by simp [hc])
    have ht : ¬ 46 ∈ t := fun hc => h (by simp [hc])
    rw [List.cons_append]
    simp only [idxDot, if_neg ha]
    rw [ih ht]
    simp

/-- The index returned by idxDot is inside the string. -/
theorem idxDot_lt (f : List Nat) (i : Nat) (h : idxDot f = some i) : i < f.length := by
  induction f generalizing i with
  | nil => simp [idxDot] at h
  | cons a t ih =>
    by_cases ha : a = 46
    · simp [idxDot, ha] at h
      simp only [List.length_cons]
      omega
    · simp only [idxDot, if_neg ha] at h
      cases ht : idxDot t with
      | none => rw [ht] at h; simp at h
      | some j =>
        rw [ht] at h
        simp at h
        have := ih j ht
        simp only [List.length_cons]
        omega

/-- A name built from a leading nonempty label is neither the root string
nor empty. -/
theorem nameOf_cons_ne (l : List Nat) (ls : List (List Nat)) (hl : l ≠ []) :
    ¬ (nameOf (l :: ls) = [46] ∨ nameOf (l :: ls) = []) := by
  have hlen : 0 < l.length := List.length_pos.mpr hl
  intro hc
  rcases hc with hc | hc <;>
    · have h2 := congrArg List.length hc
      simp only [nameOf, List.length_append, List.length_cons, List.length_nil] at h2
      omega

/-- compressor.Pack with a nil dictionary encodes a valid label sequence
to its uncompressed wire form. -/
theorem packFu_nameOf (ls : List (List Nat)) : ∀ (b : List Nat) (fu : Nat),
    ValidLabels ls → (nameOf ls).length < fu →
    packFu fu none b (nameOf ls) = .ok (none, b ++ wireOf ls) := by
  induction ls with
  | nil =>
    intro b fu _ hfu
    cases fu with
    | zero => omega
    | succ k =>
      rw [packFu_base k none b (nameOf []) (Or.inr rfl)]
      rfl
  | cons l ls ih =>
    intro b fu hv hfu
    have hl := hv l (List.mem_cons_self l ls)
    cases fu with
    | zero => omega
    | succ k =>
      have hne := nameOf_cons_ne l ls hl.1
      have hflen : (nameOf (l :: ls)).length = l.length + 1 + (nameOf ls).length := by
        simp only [nameOf, List.length_append, List.length_cons]
        omega
      have hl0 : 0 < l.length := List.length_pos.mpr hl.1
      rw [packFu_step k none b (nameOf (l :: ls)) l.length none hne rfl
        (idxDot_append l (nameOf ls) hl.2.2) (by omega) (by omega) rfl]
      rw [show nameOf (l :: ls) = l ++ 46 :: nameOf ls from rfl]
      rw [List.take_left l (46 :: nameOf ls)]
      rw [show (l ++ 46 :: nameOf ls) = (l ++ [46]) ++ nameOf ls by simp]
      rw [show l.length + 1 = (l ++ [46]).length by simp]
      rw [List.drop_left (l ++ [46]) (nameOf ls)]
      rw [ih (b ++ l.length :: l) k (fun x hx => hv x (List.mem_cons_of_mem l hx)) (by omega)]
      simp [wireOf]

/-- decompressor.unpack recovers the dotted string form from the
uncompressed wire form of a valid label sequence and hands back exactly
the trailing buffer. -/
theorem unpack_wireOf (ls : List (List Nat)) : ∀ (c : Option (List Nat)) (vis tail : List Nat)
    (fu : Nat), ValidLabels ls → (wireOf ls).length ≤ fu →
    unpack c fu (wireOf ls ++ tail) vis =
      .ok ((if ls = [] then [46] else nameOf ls), tail) := by
  induction ls with
  | nil =>
    intro c vis tail fu _ hfu
    cases fu with
    | zero => simp [wireOf] at hfu
    | succ k => simp [wireOf, unpack]
  | cons l ls ih =>
    intro c vis tail fu hv hfu
    have hl := hv l (List.mem_cons_self l ls)
    have hl0 : 0 < l.length := List.length_pos.mpr hl.1
    have hwlen : (wireOf (l :: ls)).length = 1 + l.length + (wireOf ls).length := by
      simp only [wireOf, List.length_cons, List.length_append]
      omega
    cases fu with
    | zero => omega
    | succ k =>
      obtain ⟨a, l2, hal⟩ := List.exists_cons_of_ne_nil hl.1
      have hb : wireOf (l :: ls) ++ tail =
          (l2.length + 1) :: a :: (l2 ++ (wireOf ls ++ tail)) := by
        rw [show wireOf (l :: ls) = l.length :: (l ++ wireOf ls) from rfl, hal]
        simp
      rw [hb]
      have hlen2 : l.length = l2.length + 1 := by rw [hal]; rfl
      rw [unpack_label_step c k l2.length a (l2 ++ (wireOf ls ++ tail)) vis
        (isPointer_of_le_63 (l2.length + 1) (by omega))
        (by simp only [List.length_cons, List.length_append]; omega)]
      have htk : (a :: (l2 ++ (wireOf ls ++ tail))).take (l2.length + 1) = l := by
        rw [show a :: (l2 ++ (wireOf ls ++ tail)) = (a :: l2) ++ (wireOf ls ++ tail) from rfl]
        rw [show l2.length + 1 = (a :: l2).length from rfl]
        rw [List.take_left (a :: l2) (wireOf ls ++ tail), hal]
      have hdp : (a :: (l2 ++ (wireOf ls ++ tail))).drop (l2.length + 1) =
          wireOf ls ++ tail := by
        rw [show a :: (l2 ++ (wireOf ls ++ tail)) = (a :: l2) ++ (wireOf ls ++ tail) from rfl]
        rw [show l2.length + 1 = (a :: l2).length from rfl]
        rw [List.drop_left (a :: l2) (wireOf ls ++ tail)]
      rw [htk, hdp]
      rw [ih c vis tail k (fun x hx => hv x (List.mem_cons_of_mem l hx)) (by omega)]
      by_cases hls : ls = []
      · subst hls
        simp [nameOf]
      · have hneroot : ¬ nameOf ls = [46] := by
          obtain ⟨l3, ls3, hl3⟩ := List.exists_cons_of_ne_nil hls
          subst hl3
          intro hc
          exact nameOf_cons_ne l3 ls3
            (hv l3 (List.mem_cons_of_mem l (List.mem_cons_self l3 ls3))).1 (Or.inl hc)
        rw [if_neg hls]
        simp only []
        rw [if_neg hneroot, if_neg (show ¬ (l :: ls) = [] by simp)]
        simp [nameOf]

theorem packFu_nodot (fu : Nat) (c : Option Dict) (b f : List Nat)
    (hne : ¬ (f = [46] ∨ f = [])) (hhit : dictHit c f = none) (hdot : idxDot f = none) :
    packFu (fu + 1) c b f =
      (match dictInsert c f b.length with
       | .err e => .err e
       | _ => .crash) := by
  simp only [packFu, if_neg hne]
  rw [hhit]
  simp only []
  rw [hdot]

theorem packFu_zeroseg (fu : Nat) (c : Option Dict) (b f : List Nat)
    (hne : ¬ (f = [46] ∨ f = [])) (hhit : dictHit c f = none) (hdot : idxDot f = some 0) :
    packFu (fu + 1) c b f = .err .zeroSegLen := by
  simp only [packFu, if_neg hne]
  rw [hhit]
  simp only []
  rw [hdot]
  simp

theorem packFu_toolong (fu : Nat) (c : Option Dict) (b f : List Nat) (pvt : Nat)
    (hne : ¬ (f = [46] ∨ f = [])) (hhit : dictHit c f = none) (hdot : idxDot f = some pvt)
    (h0 : ¬ pvt = 0) (h63 : 63 < pvt) :
    packFu (fu + 1) c b f = .err .segTooLong := by
  simp only [packFu, if_neg hne]
  rw [hhit]
  simp only []
  rw [hdot]
  simp only []
  rw [if_neg h0, if_pos h63]

theorem packFu_insfail (fu : Nat) (c : Option Dict) (b f : List Nat) (pvt : Nat) (e : PErr)
    (hne : ¬ (f = [46] ∨ f = [])) (hhit : dictHit c f = none) (hdot : idxDot f = some pvt)
    (h0 : ¬ pvt = 0) (h63 : ¬ 63 < pvt) (hins : dictInsert c f b.length = .err e) :
    packFu (fu + 1) c b f = .err e := by
  simp only [packFu, if_neg hne]
  rw [hhit]
  simp only []
  rw [hdot]
  simp only []
  rw [if_neg h0, if_neg h63, hins]

/-- compressor.Pack only ever appends to the buffer it is given. -/
theorem packFu_extends : ∀ (fu : Nat) (c : Option Dict) (b f : List Nat) (c2 : Option Dict)
    (out : List Nat), packFu fu c b f = .ok (c2, out) → ∃ t, out = b ++ t := by
  intro fu
  induction fu with
  | zero => intro c b f c2 out h; simp [packFu] at h
  | succ fu ih =>
    intro c b f c2 out h
    by_cases hne : f = [46] ∨ f = []
    · rw [packFu_base fu c b f hne] at h
      simp only [Res.ok.injEq, Prod.mk.injEq] at h
      exact ⟨[0], h.2.symm⟩
    · cases hhit : dictHit c f with
      | some idx =>
        rw [packFu_hit fu c b f idx hne hhit] at h
        cases hpt : pointerTo idx with
        | ok ptr =>
          rw [hpt] at h
          simp only [Res.ok.injEq, Prod.mk.injEq] at h
          exact ⟨ptr, h.2.symm⟩
        | err e => rw [hpt] at h; simp at h
        | crash => rw [hpt] at h; simp at h
      | none =>
        cases hdot : idxDot f with
        | none =>
          rw [packFu_nodot fu c b f hne hhit hdot] at h
          cases hins : dictInsert c f b.length with
          | ok c3 => rw [hins] at h; simp at h
          | err e => rw [hins] at h; simp at h
          | crash => rw [hins] at h; simp at h
        | some pvt =>
          by_cases h0 : pvt = 0
          · subst h0
            rw [packFu_zeroseg fu c b f hne hhit hdot] at h
            simp at h
          · by_cases h63 : 63 < pvt
            · rw [packFu_toolong fu c b f pvt hne hhit hdot h0 h63] at h
              simp at h
            · cases hins : dictInsert c f b.length with
              | err e =>
                rw [packFu_insfail fu c b f pvt e hne hhit hdot h0 h63 hins] at h
                simp at h
              | crash =>
                cases c with
                | none => simp [dictInsert] at hins
                | some dd =>
                  simp only [dictInsert] at hins
                  split at hins <;> simp at hins
              | ok c3 =>
                rw [packFu_step fu c b f pvt c3 hne hhit hdot h0 h63 hins] at h
                obtain ⟨t, ht⟩ := ih _ _ _ _ _ h
                exact ⟨pvt :: f.take pvt ++ t, by rw [ht]; simp⟩

/-- A dictionary whose keys are all longer than the name misses. -/
theorem lookupD_keys_long (ext : Dict) (f : List Nat)
    (h : ∀ kv ∈ ext, f.length < kv.1.length) : lookupD ext f = none := by
  induction ext with
  | nil => rfl
  | cons kv rest ih =>
    obtain ⟨k, v⟩ := kv
    simp only [lookupD]
    rw [if_neg]
    · exact ih (fun x hx => h x (List.mem_cons_of_mem _ hx))
    · intro hc
      have hk := h (k, v) (List.mem_cons_self _ _)
      rw [hc] at hk
      exact absurd hk (by simp)

/-- Lookup skips a missing front segment of the dictionary. -/
theorem lookupD_append (ext d : Dict) (f : List Nat) (h : lookupD ext f = none) :
    lookupD (ext ++ d) f = lookupD d f := by
  induction ext with
  | nil => rfl
  | cons kv rest ih =>
    obtain ⟨k, v⟩ := kv
    simp only [lookupD, List.cons_append] at h ⊢
    by_cases hk : k = f
    · rw [if_pos hk] at h
      simp at h
    · rw [if_neg hk] at h ⊢
      exact ih h

/-- A successfully built compression pointer is two bytes. -/
theorem pointerTo_ok_len (idx : Nat) (p : List Nat) (h : pointerTo idx = .ok p) :
    p.length = 2 := by
  simp only [pointerTo] at h
  split at h
  · simp at h
  · simp only [Res.ok.injEq] at h
    rw [← h]
    rfl

/-- When Pack with a nil dictionary succeeds, length with a nil
dictionary computes exactly the number of appended bytes. -/
theorem lengthFu_of_packFu_none : ∀ (fu : Nat) (f b : List Nat) (c2 : Option Dict)
    (out : List Nat) (fu2 : Nat) (vis : List (List Nat)),
    packFu fu none b f = .ok (c2, out) → f.length < fu2 →
    lengthFu fu2 none f vis = some (out.length - b.length) := by
  intro fu
  induction fu with
  | zero => intro f b c2 out fu2 vis h _; simp [packFu] at h
  | succ fu ih =>
    intro f b c2 out fu2 vis h hfu2
    obtain ⟨k2, rfl⟩ : ∃ k2, fu2 = k2 + 1 := ⟨fu2 - 1, by omega⟩
    by_cases hne : f = [46] ∨ f = []
    · rw [packFu_base fu none b f hne] at h
      simp only [Res.ok.injEq, Prod.mk.injEq] at h
      rw [lengthFu_base k2 none f vis hne, ← h.2]
      simp
    · cases hdot : idxDot f with
      | none =>
        rw [packFu_nodot fu none b f hne rfl hdot] at h
        simp [dictInsert] at h
      | some pvt =>
        by_cases h0 : pvt = 0
        · subst h0
          rw [packFu_zeroseg fu none b f hne rfl hdot] at h
          simp at h
        · by_cases h63 : 63 < pvt
          · rw [packFu_toolong fu none b f pvt hne rfl hdot h0 h63] at h
            simp at h
          · rw [packFu_step fu none b f pvt none hne rfl hdot h0 h63 rfl] at h
            have hpvt := idxDot_lt f pvt hdot
            have hdl : (f.drop (pvt + 1)).length < k2 := by
              simp only [List.length_drop]
              omega
            rw [lengthFu_step_none k2 f vis pvt hne hdot]
            rw [ih (f.drop (pvt + 1)) (b ++ pvt :: f.take pvt) c2 out k2 vis h hdl]
            obtain ⟨t, rfl⟩ := packFu_extends _ _ _ _ _ _ h
            have htake : (f.take pvt).length = pvt := by
              simp only [List.length_take]
              omega
            simp only [Option.map_some', Option.some.injEq, List.length_append,
              List.length_cons, htake]
            omega

/-- When Pack with a non-nil dictionary succeeds, length against the
dictionary as it stood before the call computes exactly the number of
appended bytes. The segment ext collects the strictly longer suffixes
that Pack has inserted so far, and vis the same names on the length side. -/
theorem lengthFu_of_packFu_some (d : Dict) : ∀ (fu : Nat) (f : List Nat) (ext : Dict)
    (b : List Nat) (c2 : Option Dict) (out : List Nat) (fu2 : Nat) (vis : List (List Nat)),
    packFu fu (some (ext ++ d)) b f = .ok (c2, out) →
    (∀ kv ∈ ext, f.length < kv.1.length) →
    (∀ v ∈ vis, f.length < v.length) →
    f.length < fu2 →
    lengthFu fu2 (some d) f vis = some (out.length - b.length) := by
  intro fu
  induction fu with
  | zero => intro f ext b c2 out fu2 vis h _ _ _; simp [packFu] at h
  | succ fu ih =>
    intro f ext b c2 out fu2 vis h hext hvis hfu2
    obtain ⟨k2, rfl⟩ : ∃ k2, fu2 = k2 + 1 := ⟨fu2 - 1, by omega⟩
    by_cases hne : f = [46] ∨ f = []
    · rw [packFu_base fu _ b f hne] at h
      simp only [Res.ok.injEq, Prod.mk.injEq] at h
      rw [lengthFu_base k2 (some d) f vis hne, ← h.2]
      simp
    · have hsplit : dictHit (some (ext ++ d)) f = lookupD d f :=
        lookupD_append ext d f (lookupD_keys_long ext f hext)
      cases hd : lookupD d f with
      | some idx =>
        rw [packFu_hit fu _ b f idx hne (hsplit.trans hd)] at h
        cases hpt : pointerTo idx with
        | ok ptr =>
          rw [hpt] at h
          simp only [Res.ok.injEq, Prod.mk.injEq] at h
          rw [lengthFu_hit k2 d f vis hne (by rw [hd]; rfl), ← h.2]
          simp [pointerTo_ok_len idx ptr hpt]
        | err e => rw [hpt] at h; simp at h
        | crash => rw [hpt] at h; simp at h
      | none =>
        cases hdot : idxDot f with
        | none =>
          rw [packFu_nodot fu _ b f hne (hsplit.trans hd) hdot] at h
          simp only [dictInsert] at h
          split at h <;> simp at h
        | some pvt =>
          by_cases h0 : pvt = 0
          · subst h0
            rw [packFu_zeroseg fu _ b f hne (hsplit.trans hd) hdot] at h
            simp at h
          · by_cases h63 : 63 < pvt
            · rw [packFu_toolong fu _ b f pvt hne (hsplit.trans hd) hdot h0 h63] at h
              simp at h
            · by_cases hbig : b.length % 65536 ≠ b.length
              · have hins : dictInsert (some (ext ++ d)) f b.length = .err .invalidPtr := by
                  simp only [dictInsert]
                  rw [if_pos hbig]
                rw [packFu_insfail fu _ b f pvt .invalidPtr hne (hsplit.trans hd) hdot h0 h63
                  hins] at h
                simp at h
              · have hins : dictInsert (some (ext ++ d)) f b.length =
                    .ok (some (((f, b.length) :: ext) ++ d)) := by
                  simp only [dictInsert]
                  rw [if_neg hbig]
                  rfl
                rw [packFu_step fu _ b f pvt _ hne (hsplit.trans hd) hdot h0 h63 hins] at h
                have hpvt := idxDot_lt f pvt hdot
                have hf0 : f ≠ [] := fun hc => hne (Or.inr hc)
                have hflen : 0 < f.length := List.length_pos.mpr hf0
                have ihres := ih (f.drop (pvt + 1)) ((f, b.length) :: ext)
                  (b ++ pvt :: f.take pvt) c2 out k2 (f :: vis) h
                  (by
                    intro kv hkv
                    rcases List.mem_cons.mp hkv with hkv | hkv
                    · rw [hkv]
                      simp only [List.length_drop]
                      omega
                    · have := hext kv hkv
                      simp only [List.length_drop]
                      omega)
                  (by
                    intro v hv2
                    rcases List.mem_cons.mp hv2 with hv2 | hv2
                    · rw [hv2]
                      simp only [List.length_drop]
                      omega
                    · have := hvis v hv2
                      simp only [List.length_drop]
                      omega)
                  (by
                    simp only [List.length_drop]
                    omega)
                rw [lengthFu_step_some k2 d f vis pvt hne hd
                  (fun hc => absurd (hvis f hc) (by omega)) hdot]
                rw [ihres]
                obtain ⟨t, rfl⟩ := packFu_extends _ _ _ _ _ _ h
                have htake : (f.take pvt).length = pvt := by
                  simp only [List.length_take]
                  omega
                simp only [Option.map_some', Option.some.injEq, List.length_append,
                  List.length_cons, htake]
                omega

/-- A section with an expired resource makes the collection loop of
Cache.lookup abort. -/
theorem collectFresh_none (now : Int) (rs : List Resource)
    (h : ∃ r ∈ rs, cacheTTL r.ttl now ≤ 0) : collectFresh now rs = none := by
  induction rs with
  | nil =>
    obtain ⟨r, hr, _⟩ := h
    simp at hr
  | cons r rest ih =>
    obtain ⟨r2, hr2, hex⟩ := h
    simp only [collectFresh]
    by_cases hexp : cacheTTL r.ttl now ≤ 0
    · rw [if_pos hexp]
    · rw [if_neg hexp]
      rcases List.mem_cons.mp hr2 with hv | hv
      · rw [hv] at hex
        exact absurd hex hexp
      · rw [ih ⟨r2, hv, hex⟩]
        rfl

/-!
The claims.
-/

/-- Claim C1: for every fully qualified domain name n with valid labels
(each 1-63 bytes, written with the trailing dot), unpacking the bytes
produced by packing n with a nil compression dictionary returns exactly
n, an empty remaining buffer and no error. -/
theorem c1_name_roundtrip (n : List Nat) (h : FQDNSpec n) :
    ∃ out, compressorPack none [] n = .ok (none, out) ∧
      decompressorUnpack none out = .ok (n, []) := by
  rcases h with rfl | ⟨ls, hne, hv, rfl⟩
  · exact ⟨[0], by decide, by decide⟩
  · refine ⟨wireOf ls, ?_, ?_⟩
    · rw [compressorPack, packFu_nameOf ls [] ((nameOf ls).length + 1) hv (by omega)]
      rfl
    · rw [decompressorUnpack]
      rw [show wireOf ls = wireOf ls ++ [] by simp]
      rw [unpack_wireOf ls none [] [] (unpackFuel none (wireOf ls ++ [])) hv
        (by simp [unpackFuel, cLen]; omega)]
      rw [if_neg hne]

theorem c1_name_roundtrip_witness : FQDNSpec [97, 98, 46] ∧
    (∃ out, compressorPack none [] [97, 98, 46] = .ok (none, out) ∧
      decompressorUnpack none out = .ok ([97, 98, 46], [])) :=
  ⟨Or.inr ⟨[[97, 98]], by decide, by decide, by decide⟩,
   c1_name_roundtrip [97, 98, 46] (Or.inr ⟨[[97, 98]], by decide, by decide, by decide⟩)⟩

/-- Claim C2: the offset range checks of Pack and pointerTo test against
2^16, not 2^14. A dictionary entry recorded at offset 16384 = 2^14 is
accepted by the insert check, and a dictionary hit on it emits the two
bytes 0xC0 0x00 with no error: a pointer to offset 0, because the or with
0xC000 destroys the top offset bits, instead of the InvalidPtr failure
the specification requires for offsets at or above 2^14. -/
theorem c2_pointer_overflow_emitted :
    compressorPack (some [([97, 46], 16384)]) [] [97, 46] =
      .ok (some [([97, 46], 16384)], [0xC0, 0x00]) ∧
    pointerTo 16384 = .ok [0xC0, 0x00] ∧
    dictInsert (some []) [97, 46] 16384 = .ok (some [([97, 46], 16384)]) :=
  ⟨by decide, by decide, by decide⟩

/-- Claim C3 (counterexample): the raw message whose name field holds the
pointer bytes 0xC0 0x0C at offset 12, pointing at themselves, is rejected
with InvalidPtr, not with PtrCycle as the claim states. -/
theorem c3_ptr_to_ptr_counterexample :
    decompressorUnpack (some [0, 0, 0, 0, 0, 0, 0, 0, 0, 0, 0, 0, 0xC0, 0x0C])
        [0xC0, 0x0C] = .err .invalidPtr ∧
    decompressorUnpack (some [0, 0, 0, 0, 0, 0, 0, 0, 0, 0, 0, 0, 0xC0, 0x0C])
        [0xC0, 0x0C] ≠ .err .ptrCycle :=
  ⟨by decide, by decide⟩

/-- Claim C3 (amended): a pointer whose referenced byte is itself a
pointer fails with the InvalidPtr error; deref reports PtrCycle only when
a dereferenced offset repeats in the visited set. -/
theorem c3_deref_pointer_target (d : List Nat) (fuel ptr : Nat) (visited : List Nat)
    (cb : Nat) (hget : d.get? (ptr &&& 0x3FFF) = some cb) (hcb : isPointer cb = true) :
    deref d fuel ptr visited = .err .invalidPtr := by
  have hlt : ptr &&& 0x3FFF < d.length := by
    by_contra hc
    rw [List.get?_eq_none.mpr (by omega)] at hget
    simp at hget
  simp only [deref]
  rw [if_neg (by omega : ¬ d.length < (ptr &&& 0x3FFF))]
  rw [hget]
  simp [hcb]

theorem c3_deref_pointer_target_witness :
    ([192] : List Nat).get? (0 &&& 0x3FFF) = some 192 ∧ isPointer 192 = true ∧
      deref [192] 0 0 [] = .err .invalidPtr :=
  ⟨by decide, by decide, c3_deref_pointer_target [192] 0 0 [] 192 (by decide) (by decide)⟩

/-- Claim C4 (counterexample): the byte 0x80 has only one of the top two
bits set, yet isPointer accepts it, and unpack dereferences 0x80 0x00 as
a pointer to offset 0 of the message (here returning the root name)
instead of reading 0x80 as a label length, which would fail with calcLen. -/
theorem c4_single_bit_counterexample :
    isPointer 0x80 = true ∧ 0x80 &&& 0xC0 ≠ 0xC0 ∧
    decompressorUnpack (some [0]) [0x80, 0x00] = .ok ([46], []) ∧
    decompressorUnpack (some [0]) [0x80, 0x00] ≠ .err .calcLen :=
  ⟨by decide, by decide, by decide, by decide⟩

set_option maxRecDepth 4096 in
/-- Claim C4 (amended): during unpacking a byte is treated as a
compression pointer exactly when at least one of its top two bits is set,
that is for every byte value from 64 up; with a nil decompressor any such
first byte makes unpack fail with InvalidPtr instead of being read as a
label length. -/
theorem c4_pointer_iff_top_bits (b0 : Nat) (hb : b0 < 256) :
    (isPointer b0 = true ↔ 64 ≤ b0) ∧
    (∀ (b1 : Nat) (rest visited : List Nat) (fu : Nat), 64 ≤ b0 →
      unpack none (fu + 1) (b0 :: b1 :: rest) visited = .err .invalidPtr) := by
  have hall : ∀ m < 256, (isPointer m = true ↔ 64 ≤ m) := by decide
  refine ⟨hall b0 hb, ?_⟩
  intro b1 rest visited fu h64
  obtain ⟨k, rfl⟩ : ∃ k, b0 = k + 1 := ⟨b0 - 1, by omega⟩
  exact unpack_ptr_none fu k b1 rest visited ((hall (k + 1) hb).mpr h64)

set_option maxRecDepth 4096 in
theorem c4_pointer_iff_top_bits_witness :
    (isPointer 128 = true ↔ 64 ≤ 128) ∧
      unpack none 1 [128, 0] [] = .err .invalidPtr :=
  ⟨(c4_pointer_iff_top_bits 128 (by decide)).1,
   (c4_pointer_iff_top_bits 128 (by decide)).2 0 [] [] 0 (by decide)⟩

/-- Claim C5 (counterexample): Length and Pack can disagree. For the
dictionary state mapping the name to offset 70000 (a value of the Go map
type map[string]int) Length reports the two pointer bytes while Pack
fails with InvalidPtr and appends nothing; the same disagreement arises
from any reachable packing whose buffer grows past 2^16, where the insert
check fails while Length keeps counting. -/
theorem c5_length_vs_pack_counterexample :
    compressorLength (some [([97, 46], 70000)]) [97, 46] = some 2 ∧
    compressorPack (some [([97, 46], 70000)]) [] [97, 46] = .err .invalidPtr :=
  ⟨by decide, by decide⟩

/-- Claim C5 (amended): whenever Pack succeeds, Length computed against
the same starting dictionary state equals the number of bytes Pack
appended to the buffer. -/
theorem c5_length_matches_pack (c : Option Dict) (b f : List Nat) (c2 : Option Dict)
    (out : List Nat) (h : compressorPack c b f = .ok (c2, out)) :
    ∃ t, out = b ++ t ∧ compressorLength c f = some t.length := by
  rw [compressorPack] at h
  obtain ⟨t, rfl⟩ := packFu_extends _ _ _ _ _ _ h
  refine ⟨t, rfl, ?_⟩
  have hlen : lengthFu (f.length + 1) c f [] = some ((b ++ t).length - b.length) := by
    cases c with
    | none => exact lengthFu_of_packFu_none _ f b c2 (b ++ t) (f.length + 1) [] h (by omega)
    | some d =>
      exact lengthFu_of_packFu_some d _ f [] b c2 (b ++ t) (f.length + 1) [] h
        (by intro kv hkv; simp at hkv) (by intro v hv; simp at hv) (by omega)
  rw [compressorLength, hlen]
  simp

set_option maxRecDepth 4096 in
theorem c5_length_matches_pack_witness :
    compressorPack (some []) [] [97, 46] = .ok (some [([97, 46], 0)], [1, 97, 0]) ∧
    (∃ t, ([1, 97, 0] : List Nat) = [] ++ t ∧
      compressorLength (some []) [97, 46] = some t.length) :=
  ⟨by decide,
   c5_length_matches_pack (some []) [] [97, 46] (some [([97, 46], 0)]) [1, 97, 0] (by decide)⟩

/-- Claim C6: if any resource stored in the cached entry for a question
has remaining TTL at most zero at lookup time, Cache.ServeDNS treats the
entire entry as a miss for that question: the lookup writes none of the
resources of that entry and the query is forwarded upstream via Recur. -/
theorem c6_expired_entry_is_miss (cache : List (Question × CacheMsg)) (qs : List Question)
    (q : Question) (msg : CacheMsg) (now : Int)
    (hq : q ∈ qs) (hfind : assocFind cache q = some msg)
    (hexp : ∃ r ∈ msg.answers ++ msg.authorities ++ msg.additionals, cacheTTL r.ttl now ≤ 0) :
    cacheLookup cache q now = (false, []) ∧ (cacheServeDNS cache qs now).2 = true := by
  have hlook : cacheLookup cache q now = (false, []) := by
    obtain ⟨r, hr, hex⟩ := hexp
    simp only [List.mem_append] at hr
    simp only [cacheLookup, hfind]
    rcases hr with (hr | hr) | hr
    · rw [collectFresh_none now msg.answers ⟨r, hr, hex⟩]
    · cases ha : collectFresh now msg.answers with
      | none => rfl
      | some answers => rw [collectFresh_none now msg.authorities ⟨r, hr, hex⟩]
    · cases ha : collectFresh now msg.answers with
      | none => rfl
      | some answers =>
        cases hb : collectFresh now msg.authorities with
        | none => rfl
        | some authorities => rw [collectFresh_none now msg.additionals ⟨r, hr, hex⟩]
  refine ⟨hlook, ?_⟩
  simp only [cacheServeDNS, List.any_eq_true]
  exact ⟨cacheLookup cache q now, List.mem_map_of_mem _ hq, by rw [hlook]; rfl⟩

theorem c6_expired_entry_is_miss_witness :
    cacheLookup [(⟨[97, 46], 1, 1⟩, ⟨[⟨[97, 46], 5, 0⟩], [], []⟩)] ⟨[97, 46], 1, 1⟩ 10 =
      (false, []) ∧
    (cacheServeDNS [(⟨[97, 46], 1, 1⟩, ⟨[⟨[97, 46], 5, 0⟩], [], []⟩)] [⟨[97, 46], 1, 1⟩] 10).2 =
      true :=
  c6_expired_entry_is_miss [(⟨[97, 46], 1, 1⟩, ⟨[⟨[97, 46], 5, 0⟩], [], []⟩)]
    [⟨[97, 46], 1, 1⟩] ⟨[97, 46], 1, 1⟩ ⟨[⟨[97, 46], 5, 0⟩], [], []⟩ 10
    (by decide) (by decide) ⟨⟨[97, 46], 5, 0⟩, by decide, by decide⟩

/-- Claim C7: Client.do sends a copy of the query message whose ID is
the next client ID, produced before the send by incrementing the 32 bit
counter and masking to 16 bits (so consecutive sends carry consecutive
IDs wrapping at 2^16), and the message returned to the caller is the
received reply carrying the original query ID. -/
theorem c7_id_substitution (cid : Nat) (q : GoMsg) (respond : GoMsg → GoMsg) :
    clientDo cid q respond =
      ((cid + 1) % 4294967296,
       { q with mid := (cid + 1) % 65536 },
       { respond { q with mid := (cid + 1) % 65536 } with mid := q.mid }) := by
  have harith : ((cid + 1) % 4294967296) &&& idMask = (cid + 1) % 65536 := by
    have h1 : idMask = 2 ^ 16 - 1 := by decide
    rw [h1, Nat.and_pow_two_sub_one_eq_mod]
    have h2 : (2 : Nat) ^ 16 = 65536 := by norm_num
    rw [h2]
    exact Nat.mod_mod_of_dvd _ (by norm_num)
  simp only [clientDo, nextID, harith]

/-- Claim C8: serverWriter.Reply has a value receiver, so the assignment
of true to the replied field mutates a copy that is discarded; the check
in Server.handle therefore always sees replied false and invokes Reply
again. A handler that replied once produces two sent replies instead of
exactly one; only a handler that never replies gets exactly one. -/
theorem c8_value_receiver_double_reply :
    serverHandle 1 = 2 ∧ serverHandle 0 = 1 ∧
    (runHandler 1 { replied := false } 0).1.replied = false ∧
    (serverWriterReply { replied := false } 0).1.replied = true :=
  ⟨by decide, by decide, by decide, by decide⟩

/-- Claim C9 (counterexample): Transport.DialAddr never fails with
ErrUnsupportedNetwork: dialing the network sctp with a connection that is
neither a package Conn nor a packet connection yields a StreamConn.
Dialer.DialAddr switches on the raw network string without stripping the
-tls suffix: the network udp-tls fails with ErrUnsupportedNetwork where
the claim promises a PacketConn for the stripped network udp. -/
theorem c9_dialaddr_counterexample :
    transportDialAddr none (fun _ _ => ⟨false, false, false⟩) ("sctp", "h:53") =
      .stream ⟨false, false, false⟩ ∧
    dialerDialAddr (fun _ _ => ⟨false, false, false⟩) ("udp-tls", "h:853") =
      .errUnsupportedNetwork :=
  ⟨by decide, by decide⟩

/-- Claim C9 (amended): Transport.DialAddr classifies by the dynamic type
of the dialed connection and cannot fail with ErrUnsupportedNetwork,
while Dialer.DialAddr fails with ErrUnsupportedNetwork exactly when the
dialed connection is not already a package Conn and the raw unstripped
network string is none of tcp, tcp4, tcp6, udp, udp4, udp6. -/
theorem c9_dialaddr_classification :
    (∀ (p : Option (String × String → String × String))
        (dc : String → String → GoNetConn) (a : String × String),
        transportDialAddr p dc a ≠ .errUnsupportedNetwork) ∧
    (∀ (dc : String → String → GoNetConn) (a : String × String),
        dialerDialAddr dc a = .errUnsupportedNetwork ↔
          (dc a.1 a.2).isDnsConn = false ∧
            ¬ a.1 ∈ (["tcp", "tcp4", "tcp6", "udp", "udp4", "udp6"] : List String)) := by
  constructor
  · intro p dc a hcontra
    simp only [transportDialAddr] at hcontra
    split at hcontra
    · simp at hcontra
    · split at hcontra <;> split at hcontra <;> simp at hcontra
  · intro dc a
    simp only [dialerDialAddr]
    by_cases h1 : (dc a.1 a.2).isDnsConn = true
    · rw [if_pos h1]
      simp [h1]
    · rw [if_neg h1]
      have h1f : (dc a.1 a.2).isDnsConn = false := by
        cases hb : (dc a.1 a.2).isDnsConn
        · rfl
        · exact absurd hb h1
      by_cases h2 : a.1 = "tcp" ∨ a.1 = "tcp4" ∨ a.1 = "tcp6"
      · rw [if_pos h2]
        rcases h2 with h | h | h <;> simp [h]
      · rw [if_neg h2]
        by_cases h3 : a.1 = "udp" ∨ a.1 = "udp4" ∨ a.1 = "udp6"
        · rw [if_pos h3]
          rcases h3 with h | h | h <;> simp [h]
        · rw [if_neg h3]
          simp only [List.mem_cons, List.not_mem_nil, or_false]
          constructor
          · intro _
            exact ⟨h1f, by tauto⟩
          · intro _
            trivial

/-- Claim C10: the bounds check of decompressor.deref uses strict less
than, so a pointer whose 14 bit offset equals the message length passes
the check and the read of the referenced byte indexes one past the end of
the buffer: a Go index-out-of-range runtime failure instead of a returned
error. An offset one further is rejected with InvalidPtr as intended. -/
theorem c10_deref_offset_equal_length_crashes :
    deref [0] 5 1 [] = .crash ∧
    decompressorUnpack (some [0]) [0xC0, 0x01] = .crash ∧
    deref [0] 5 2 [] = .err .invalidPtr :=
  ⟨by decide, by decide, by decide⟩
